import Mathlib

/-!
Shallow embedding of the compression codecs of the `generic-compression`
repository (`src/lib/transform/bwt.rs`, `src/lib/transform/mtf.rs`,
`src/lib/lz/lz77.rs`, `src/lib/lz/lz78.rs`, `src/lib/lz/lzw.rs`, and the
STACK pipeline of `src/bin/bin.rs`).

Rust `Vec<T>` becomes `List α`, indexing `v[i]` (which panics when out of
bounds) becomes `l[i]?` threaded through `Option`, and every function that
can panic returns an `Option`.  Rust's stable `sort_by` is modelled by a
stable insertion sort.  Loops whose cursor advances by a positive amount
each iteration are modelled either by well-founded recursion on the length
of the remaining input or by a fuel argument that provably suffices.
-/

namespace Compression

variable {α : Type}

/-- Stable insert: place `x` before the first element `y` with `le x y`.
Together with `sortByLe` this models Rust's stable `sort_by`: an element
is placed before all *later* elements that compare equal to it, so equal
elements keep their original relative order. -/
def insertLe (le : α → α → Bool) (x : α) : List α → List α
  | [] => [x]
  | y :: ys => if le x y then x :: y :: ys else y :: insertLe le x ys

/-- Stable insertion sort, modelling Rust's stable `slice::sort_by`. -/
def sortByLe (le : α → α → Bool) : List α → List α
  | [] => []
  | x :: xs => insertLe le x (sortByLe le xs)

/-- Lexicographic `≤` on lists, as produced by Rust's `Iterator::cmp`
over a totally ordered element type. -/
def listLe [LinearOrder α] : List α → List α → Bool
  | [], _ => true
  | _ :: _, [] => false
  | x :: xs, y :: ys => if x < y then true else if y < x then false else listLe xs ys

/-- The cyclic rotation of `l` starting at position `i`
(Rust: `input[a..].iter().chain(&input[..a])`). -/
def rotation (l : List α) (i : Nat) : List α := l.drop i ++ l.take i

/-- `encode_bwt` of `src/lib/transform/bwt.rs`: sort the rotation start
indices by lexicographic comparison of the rotations (stable sort), output
the symbol preceding each sorted rotation, and the rank of the rotation
starting at index 0.  The Rust `position(|&i| i == 0).unwrap()` panics when
the input is empty (no rotations at all); the panic is modelled by `none`. -/
def encode_bwt [LinearOrder α] [Inhabited α] (input : List α) : Option (List α × Nat) :=
  let n := input.length
  let rotations := sortByLe (fun a b => listLe (rotation input a) (rotation input b))
    (List.range n)
  let result := rotations.map (fun i => input.getD ((i + n - 1) % n) default)
  match rotations.findIdx? (fun i => i == 0) with
  | some originalIndex => some (result, originalIndex)
  | none => none

/-- The `while i != index` walk of `decode_bwt`.  The walk follows a cycle
of the permutation `pos ↦ table[pos].1`, so it terminates within
`table.length` steps on every table produced by `decode_bwt`; the fuel
argument makes this explicit.  Out-of-bounds accesses become `none`. -/
def bwtWalk (table : List (Nat × α)) (index : Nat) : Nat → Nat → List α → Option (List α)
  | 0, _, _ => none
  | fuel + 1, i, acc =>
    if i = index then some acc.reverse
    else
      match table[i]? with
      | none => none
      | some (j, el) => bwtWalk table index fuel j (el :: acc)

/-- `decode_bwt` of `src/lib/transform/bwt.rs`: stable-sort the enumerated
input by value, then walk the resulting successor table starting from
`index` until the walk returns to `index`, emitting one symbol per step.
`table[index]` panics (here: `none`) when `index` is out of bounds. -/
def decode_bwt [LinearOrder α] (input : List α) (index : Nat) : Option (List α) :=
  let table := sortByLe (fun a b => decide (a.2 ≤ b.2)) input.enum
  match table[index]? with
  | none => none
  | some (i, el) => bwtWalk table index table.length i [el]

/-- The loop body of `encode_move_to_front` of `src/lib/transform/mtf.rs`:
emit the current index of each symbol and move it to the front; the
`expect("Element not found in ordering")` panic is modelled by `none`.
Returns the emitted indices together with the final ordering (the Rust
code mutates `ordering` in place). -/
def mtfEncodeGo [DecidableEq α] : List α → List α → Option (List Nat × List α)
  | [], ord => some ([], ord)
  | x :: xs, ord =>
    match ord.findIdx? (fun y => y == x) with
    | none => none
    | some idx =>
      (mtfEncodeGo xs (x :: ord.eraseIdx idx)).map (fun p => (idx :: p.1, p.2))

/-- `encode_move_to_front` of `src/lib/transform/mtf.rs`. -/
def encode_move_to_front [DecidableEq α] (input : List α) (ordering : List α) :
    Option (List Nat × List α) :=
  mtfEncodeGo input ordering

/-- The loop body of `decode_move_to_front`: look each index up in the
ordering (`ordering[*idx]` panics, here `none`, when out of bounds),
emit the symbol and move it to the front. -/
def mtfDecodeGo [DecidableEq α] : List Nat → List α → Option (List α × List α)
  | [], ord => some ([], ord)
  | idx :: xs, ord =>
    match ord[idx]? with
    | none => none
    | some el =>
      (mtfDecodeGo xs (el :: ord.eraseIdx idx)).map (fun p => (el :: p.1, p.2))

/-- `decode_move_to_front` of `src/lib/transform/mtf.rs`. -/
def decode_move_to_front [DecidableEq α] (input : List Nat) (ordering : List α) :
    Option (List α × List α) :=
  mtfDecodeGo input ordering

/-! ## LZ77 (`src/lib/lz/lz77.rs`) -/

/-- An LZ77 entry as in `src/lib/lz/lz77.rs`.  Note that `next_char` has
type `α`, not `Option α`: every entry carries a literal next symbol. -/
structure LZ77entry (α : Type) where
  offset : Nat
  length : Nat
  next_char : α
  deriving DecidableEq, Repr

/-- The inner `while` loop of the match search of `lz77_encode`:
grow `k` while `k < max_length && i + k + 1 < input.len() &&
input[j + k] == input[i + k]`.  Both reads are in bounds whenever the
condition is reached (`j + k < i + k < input.len()`), so the defaulting
`getD` access is exact.  The fuel starts at `maxLength`, which bounds the
number of increments. -/
def matchLenGo [DecidableEq α] [Inhabited α] (input : List α) (maxLength j i : Nat) :
    Nat → Nat → Nat
  | 0, k => k
  | fuel + 1, k =>
    if k < maxLength ∧ i + k + 1 < input.length ∧
        input.getD (j + k) default = input.getD (i + k) default then
      matchLenGo input maxLength j i fuel (k + 1)
    else k

/-- Length of the match between positions `j` and `i` found by the inner
loop of `lz77_encode`. -/
def matchLen [DecidableEq α] [Inhabited α] (input : List α) (maxLength j i : Nat) : Nat :=
  matchLenGo input maxLength j i maxLength 0

/-- The candidate start positions `j` scanned by `lz77_encode` at cursor
`i`: `(i.saturating_sub(max_offset)..i).rev()`, i.e. `i - 1` down to
`i - min max_offset i`. -/
def lz77Candidates (i maxOffset : Nat) : List Nat :=
  (List.range (min maxOffset i)).map (fun t => i - 1 - t)

/-- The match-selection fold of `lz77_encode`: scan candidates in order,
replacing the current best only by a strictly longer match
(`k > m.length`). -/
def bestMatchGo [DecidableEq α] [Inhabited α] (input : List α) (maxLength i : Nat) :
    List Nat → Option (Nat × Nat) → Option (Nat × Nat)
  | [], m => m
  | j :: js, m =>
    if (match m with | some q => q.2 | none => 0) < matchLen input maxLength j i then
      bestMatchGo input maxLength i js (some (i - j, matchLen input maxLength j i))
    else
      bestMatchGo input maxLength i js m

/-- The longest match (offset, length) found by `lz77_encode` at cursor
`i`, or `none` when no candidate matches even one symbol. -/
def bestMatch [DecidableEq α] [Inhabited α] (input : List α) (maxOffset maxLength i : Nat) :
    Option (Nat × Nat) :=
  bestMatchGo input maxLength i (lz77Candidates i maxOffset) none

/-- The main loop of `lz77_encode`, with the cursor `i` explicit.  Each
iteration advances the cursor by `length + 1 ≥ 1`, so a fuel of
`input.length` steps suffices for the whole loop; the fuel only makes
that termination argument structural.  The reads `input[i + m.length]`
and `input[i]` are always in bounds (the match length is capped so that
`i + k + 1 ≤ input.len()`), so the defaulting access is exact and the
encoder is total. -/
def lz77EncodeGo [DecidableEq α] [Inhabited α] (input : List α) (maxOffset maxLength : Nat) :
    Nat → Nat → List (LZ77entry α)
  | 0, _ => []
  | fuel + 1, i =>
    if i < input.length then
      match bestMatch input maxOffset maxLength i with
      | some (off, k) =>
        ⟨off, k, input.getD (i + k) default⟩ ::
          lz77EncodeGo input maxOffset maxLength fuel (i + k + 1)
      | none =>
        ⟨0, 0, input.getD i default⟩ :: lz77EncodeGo input maxOffset maxLength fuel (i + 1)
    else []

/-- `lz77_encode` of `src/lib/lz/lz77.rs`. -/
def lz77_encode [DecidableEq α] [Inhabited α] (input : List α) (maxOffset maxLength : Nat) :
    List (LZ77entry α) :=
  lz77EncodeGo input maxOffset maxLength input.length 0

/-- The copy loop of `lz77_decode`: `for i in 0..length
{ output.push(output[start + i]) }`, reading from the growing output;
an out-of-bounds read (a panic in Rust) is `none`. -/
def lz77Copy (out : List α) (pos : Nat) : Nat → Option (List α)
  | 0 => some out
  | n + 1 =>
    match out[pos]? with
    | none => none
    | some c => lz77Copy (out ++ [c]) (pos + 1) n

/-- The loop of `lz77_decode`: for each entry, compute
`start = output.len() - offset` (the `usize` subtraction panics, here
`none`, when `offset > output.len()`), copy `length` symbols from `start`
and append `next_char`. -/
def lz77DecodeGo : List (LZ77entry α) → List α → Option (List α)
  | [], out => some out
  | e :: rest, out =>
    if e.offset ≤ out.length then
      match lz77Copy out (out.length - e.offset) e.length with
      | none => none
      | some out' => lz77DecodeGo rest (out' ++ [e.next_char])
    else none

/-- `lz77_decode` of `src/lib/lz/lz77.rs`. -/
def lz77_decode (input : List (LZ77entry α)) : Option (List α) :=
  lz77DecodeGo input []

/-! ## Shared dictionary scan (LZ78 / LZW)

Both `lz78_encode` and `lzw_encode` scan `dictionary.iter().enumerate()`
keeping the first acceptable entry and replacing it only by a strictly
longer one (`entry_len > dictionary[*longest].len()`).  The two differ
only in the acceptance test, so the scan is shared here with the test
abstracted as `good`. -/

/-- The dictionary scan: `pos` is the index of the head of `es` within
`dict`, `acc` the best index so far. -/
def bestIdxGo (dict : List (List α)) (good : List α → Bool) :
    Nat → List (List α) → Option Nat → Option Nat
  | _, [], acc => acc
  | pos, e :: es, acc =>
    if good e then
      match acc with
      | some b =>
        if (dict.getD b []).length < e.length then
          bestIdxGo dict good (pos + 1) es (some pos)
        else
          bestIdxGo dict good (pos + 1) es acc
      | none => bestIdxGo dict good (pos + 1) es (some pos)
    else bestIdxGo dict good (pos + 1) es acc

/-- Index of the longest acceptable dictionary entry (first-seen wins
ties), or `none` when no entry is acceptable. -/
def bestIdx (dict : List (List α)) (good : List α → Bool) : Option Nat :=
  bestIdxGo dict good 0 dict none

/-! ## LZ78 (`src/lib/lz/lz78.rs`) -/

/-- An LZ78 entry as in `src/lib/lz/lz78.rs`: an optional dictionary
index and a (mandatory) next character. -/
structure LZ78entry (α : Type) where
  index : Option Nat
  next_char : α
  deriving DecidableEq, Repr

/-- `LZ78entry::resolve`: the dictionary entry named by `index` (if any)
with `next_char` appended.  `dictionary[index]` panics (here `none`) when
the index is out of bounds. -/
def LZ78entry.resolve (e : LZ78entry α) (dict : List (List α)) : Option (List α) :=
  match e.index with
  | some idx =>
    match dict[idx]? with
    | some target => some (target ++ [e.next_char])
    | none => none
  | none => some [e.next_char]

/-- The dictionary update shared by `lz78_encode` and `lz78_decode`:
when the dictionary has reached `max_dictionary_size` the new entry
overwrites slot 0 (`*dictionary.get_mut(0).unwrap() = entry`, which
panics — here `none` — when the dictionary is empty, i.e. when
`max_dictionary_size = 0`); otherwise it is appended. -/
def updateDict (maxSize : Nat) (dict : List (List α)) (entry : List α) :
    Option (List (List α)) :=
  if dict.length = maxSize then
    match dict with
    | [] => none
    | _ :: t => some (entry :: t)
  else some (dict ++ [entry])

/-- The acceptance test of the `lz78_encode` dictionary scan: the entry
must fit the lookahead, leave room for a trailing character
(`i + entry_len + 1 ≤ input.len()`), and equal the input slice at the
cursor.  `rest` is the input from the cursor on. -/
def lz78Good [DecidableEq α] (lookaheadMax : Nat) (rest : List α) (e : List α) : Bool :=
  decide (e.length ≤ lookaheadMax ∧ e.length + 1 ≤ rest.length ∧ rest.take e.length = e)

/-- The main loop of `lz78_encode`, on the remaining input `rest`.  Each
iteration consumes `entry.length + 1 ≥ 1` symbols, so a fuel of
`input.length` suffices; the fuel only makes termination structural. -/
def lz78EncodeGo [DecidableEq α] (lookaheadMax maxSize : Nat) :
    Nat → List (List α) → List α → Option (List (LZ78entry α))
  | _, _, [] => some []
  | 0, _, _ :: _ => none
  | fuel + 1, dict, x :: rs =>
    match bestIdx dict (lz78Good lookaheadMax (x :: rs)) with
    | some idx =>
      let len := (dict.getD idx []).length
      match (x :: rs)[len]? with
      | none => none
      | some c =>
        let e : LZ78entry α := ⟨some idx, c⟩
        match e.resolve dict with
        | none => none
        | some newEntry =>
          match updateDict maxSize dict newEntry with
          | none => none
          | some dict' =>
            (lz78EncodeGo lookaheadMax maxSize fuel dict' ((x :: rs).drop (len + 1))).map
              (e :: ·)
    | none =>
      let e : LZ78entry α := ⟨none, x⟩
      match updateDict maxSize dict [x] with
      | none => none
      | some dict' =>
        (lz78EncodeGo lookaheadMax maxSize fuel dict' rs).map (e :: ·)

/-- `lz78_encode` of `src/lib/lz/lz78.rs`. -/
def lz78_encode [DecidableEq α] (input : List α) (lookaheadMax maxSize : Nat) :
    Option (List (LZ78entry α)) :=
  lz78EncodeGo lookaheadMax maxSize input.length [] input

/-- The loop of `lz78_decode`: resolve each entry against the dictionary
built so far, append the resolved symbols to the output, and update the
dictionary under the same capacity rule as the encoder. -/
def lz78DecodeGo [DecidableEq α] (maxSize : Nat) :
    List (List α) → List (LZ78entry α) → Option (List α)
  | _, [] => some []
  | dict, e :: rest =>
    match e.resolve dict with
    | none => none
    | some resolved =>
      match updateDict maxSize dict resolved with
      | none => none
      | some dict' => (lz78DecodeGo maxSize dict' rest).map (resolved ++ ·)

/-- `lz78_decode` of `src/lib/lz/lz78.rs`. -/
def lz78_decode [DecidableEq α] (input : List (LZ78entry α)) (maxSize : Nat) :
    Option (List α) :=
  lz78DecodeGo maxSize [] input

/-! ## LZW (`src/lib/lz/lzw.rs`) -/

/-- The acceptance test of the `lzw_encode` dictionary scan: the entry
must fit the lookahead and the remaining input (`i + entry_len ≤
input.len()` — no room for a trailing character is required, unlike
LZ78) and equal the input slice at the cursor. -/
def lzwGood [DecidableEq α] (maxLookahead : Nat) (rest : List α) (e : List α) : Bool :=
  decide (e.length ≤ maxLookahead ∧ e.length ≤ rest.length ∧ rest.take e.length = e)

/-- The main loop of `lzw_encode` on the remaining input.  When no
dictionary entry matches, the Rust code panics
(`panic!("No match found in dictionary")`), modelled by `none`.  Every
dictionary entry is nonempty (the dictionary is seeded with singletons
and grows by appending a character), so each iteration consumes at least
one symbol and a fuel of `input.length` suffices. -/
def lzwEncodeGo [DecidableEq α] (maxLookahead : Nat) :
    Nat → List (List α) → List α → Option (List Nat)
  | _, _, [] => some []
  | 0, _, _ :: _ => none
  | fuel + 1, dict, x :: rs =>
    match bestIdx dict (lzwGood maxLookahead (x :: rs)) with
    | none => none
    | some idx =>
      let entry := dict.getD idx []
      match (x :: rs).drop entry.length with
      | [] => (lzwEncodeGo maxLookahead fuel dict []).map (idx :: ·)
      | y :: ys =>
        let newEntry := entry ++ [y]
        let dict' := if newEntry ∈ dict then dict else dict ++ [newEntry]
        (lzwEncodeGo maxLookahead fuel dict' (y :: ys)).map (idx :: ·)

/-- `lzw_encode` of `src/lib/lz/lzw.rs`: the dictionary is seeded with
one singleton entry per symbol of `initial`. -/
def lzw_encode [DecidableEq α] (input initial : List α) (maxLookahead : Nat) :
    Option (List Nat) :=
  lzwEncodeGo maxLookahead input.length (initial.map (fun c => [c])) input

/-- The loop of `lzw_decode`: resolve the current token
(`dictionary[idx]` panics, here `none`, when out of bounds), then grow
the dictionary by peeking at the next token: if it names an existing
entry, append `entry ++ [dictionary[next][0]]`, otherwise
`entry ++ [entry[0]]`; in both cases only if not already present.
The `[0]` accesses panic (here `none`) on an empty entry, which cannot
occur for dictionaries seeded by `lzw_decode`. -/
def lzwDecodeGo [DecidableEq α] : List (List α) → List Nat → Option (List α)
  | _, [] => some []
  | dict, idx :: rest =>
    match dict[idx]? with
    | none => none
    | some entry =>
      match rest with
      | [] => some entry
      | nextIdx :: _ =>
        let newEntryO : Option (List α) :=
          if nextIdx < dict.length then
            match (dict.getD nextIdx []).head? with
            | some c => some (entry ++ [c])
            | none => none
          else
            match entry.head? with
            | some c => some (entry ++ [c])
            | none => none
        match newEntryO with
        | none => none
        | some newEntry =>
          let dict' := if newEntry ∈ dict then dict else dict ++ [newEntry]
          (lzwDecodeGo dict' rest).map (entry ++ ·)

/-- `lzw_decode` of `src/lib/lz/lzw.rs`. -/
def lzw_decode [DecidableEq α] (input : List Nat) (initial : List α) : Option (List α) :=
  lzwDecodeGo (initial.map (fun c => [c])) input

/-! ## The STACK pipeline (`src/bin/bin.rs`)

`LZW_DICIONARY` is the array of all 256 byte values; bytes are modelled
as naturals below 256.  The `usize as u8` cast of the MTF indices is
`% 256` (exact here, since an MTF index over a 256-symbol ordering is
below 256), and the `u8 as usize` / `u8` casts on the decode side are
the identity. -/

/-- The 256-byte alphabet `LZW_DICIONARY` of `src/bin/bin.rs`. -/
def LZW_DICTIONARY : List Nat := List.range 256

/-- The STACK compression path of `src/bin/bin.rs`: BWT, then MTF over
the 256-byte ordering (indices cast `as u8`), then LZW seeded with the
same alphabet.  Returns the LZW token stream and the BWT primary index. -/
def stack_compress (input : List Nat) (maxLookahead : Nat) : Option (List Nat × Nat) :=
  match encode_bwt input with
  | none => none
  | some (bwt, index) =>
    match encode_move_to_front bwt LZW_DICTIONARY with
    | none => none
    | some (mtf, _) =>
      match lzw_encode (mtf.map (· % 256)) LZW_DICTIONARY maxLookahead with
      | none => none
      | some out => some (out, index)

/-- The STACK decompression path of `src/bin/bin.rs`: LZW-decode,
MTF-decode over a fresh 256-byte ordering, then BWT-decode with the
stored primary index. -/
def stack_decompress (data : List Nat) (index : Nat) : Option (List Nat) :=
  match lzw_decode data LZW_DICTIONARY with
  | none => none
  | some mtf =>
    match decode_move_to_front mtf LZW_DICTIONARY with
    | none => none
    | some (bwt, _) => decode_bwt bwt index

/-- A (offset, length) pair is a correct description of a match at cursor
`i`: it points back to some `j < i` and its length is the match length
computed there, at least 1. -/
def GoodLZ77Match [DecidableEq α] [Inhabited α] (input : List α) (maxLength i : Nat)
    (p : Nat × Nat) : Prop :=
  ∃ j, j < i ∧ p.1 = i - j ∧ p.2 = matchLen input maxLength j i ∧ 1 ≤ p.2

/-! ### LZ77 `next_symbol` optionality (claim C6)

The claim describes entries whose `next_symbol` is optional, produced by
an encoder whose match may reach the end of the input (emitting `None`
and advancing by `k` for the final entry).  `lz77EncodeClaim` below
follows the claim's words, to be compared with `lz77_encode` from the
source; `lz77EntriesShape` states what the source encoder actually
guarantees. -/

/-- Match-length growth by the claim's words: the match may extend as
long as it never reads past `input.len()` (`i + k < input.length`),
rather than the source's `i + k + 1 < input.length`. -/
def claimMatchLenGo [DecidableEq α] [Inhabited α] (input : List α) (maxLength j i : Nat) :
    Nat → Nat → Nat
  | 0, k => k
  | fuel + 1, k =>
    if k < maxLength ∧ i + k < input.length ∧
        input.getD (j + k) default = input.getD (i + k) default then
      claimMatchLenGo input maxLength j i fuel (k + 1)
    else k

def claimMatchLen [DecidableEq α] [Inhabited α] (input : List α) (maxLength j i : Nat) : Nat :=
  claimMatchLenGo input maxLength j i maxLength 0

/-- The claim's match selection: same backward scan, nearest candidate
first, only a strictly longer match replacing the current best. -/
def claimBestGo [DecidableEq α] [Inhabited α] (input : List α) (maxLength i : Nat) :
    List Nat → Option (Nat × Nat) → Option (Nat × Nat)
  | [], m => m
  | j :: js, m =>
    if (match m with | some q => q.2 | none => 0) < claimMatchLen input maxLength j i then
      claimBestGo input maxLength i js (some (i - j, claimMatchLen input maxLength j i))
    else
      claimBestGo input maxLength i js m

def claimBest [DecidableEq α] [Inhabited α] (input : List α) (maxOffset maxLength i : Nat) :
    Option (Nat × Nat) :=
  claimBestGo input maxLength i (lz77Candidates i maxOffset) none

/-- The encoder as the claim describes it: emit
`(offset, k, some input[i+k])` and advance by `k + 1` when `i + k <
input.len()`, and `(offset, k, none)` advancing by `k` (terminating)
when the match exactly exhausts the input. -/
def lz77EncodeClaimGo [DecidableEq α] [Inhabited α] (input : List α)
    (maxOffset maxLength : Nat) : Nat → Nat → List (Nat × Nat × Option α)
  | 0, _ => []
  | fuel + 1, i =>
    if i < input.length then
      match claimBest input maxOffset maxLength i with
      | some (off, k) =>
        if i + k < input.length then
          (off, k, some (input.getD (i + k) default)) ::
            lz77EncodeClaimGo input maxOffset maxLength fuel (i + k + 1)
        else
          (off, k, none) :: lz77EncodeClaimGo input maxOffset maxLength fuel (i + k)
      | none =>
        (0, 0, some (input.getD i default)) ::
          lz77EncodeClaimGo input maxOffset maxLength fuel (i + 1)
    else []

def lz77EncodeClaim [DecidableEq α] [Inhabited α] (input : List α)
    (maxOffset maxLength : Nat) : List (Nat × Nat × Option α) :=
  lz77EncodeClaimGo input maxOffset maxLength input.length 0

/-- Injection of the source encoder's entries (mandatory `next_char`)
into the claim's optional-next-symbol shape. -/
def toClaimTriple (e : LZ77entry α) : Nat × Nat × Option α :=
  (e.offset, e.length, some e.next_char)

/-- The shape that `lz77_encode`'s output actually has, starting from
cursor `i`: every entry `e` (the final one included) satisfies
`i + e.length < input.length` and carries the literal
`next_char = input[i + e.length]`, the cursor advances by
`e.length + 1`, and the stream ends exactly at `input.length`. -/
def lz77EntriesShape [Inhabited α] (input : List α) : Nat → List (LZ77entry α) → Prop
  | i, [] => i = input.length
  | i, e :: rest =>
    i + e.length < input.length ∧
      e.next_char = input.getD (i + e.length) default ∧
      lz77EntriesShape input (i + e.length + 1) rest

end Compression

namespace Compression

/-! ## Claim theorems -/

/-- Claim C9: `encode_bwt` applied to the empty sequence does not return
a result: with zero rotations, `position(|&i| i == 0)` finds nothing and
the `unwrap` fails, so BWT encoding is only defined for nonempty input. -/
theorem encode_bwt_empty_fails : encode_bwt ([] : List Nat) = none := by decide

/-- Claim C1 is false on the code: the BWT does not round-trip on the
periodic input `[0, 1, 0, 1]`.  `encode_bwt` yields `([1, 1, 0, 0], 0)`,
but `decode_bwt` walks the successor table only until the walk returns to
`primary_index` — here after 2 steps, not `n = 4` — and emits `[0, 1]`,
of length 2 rather than 4.  The claim (and the spec's "walk it for `n`
steps") describes the standard inverse BWT, which the code's
`while i != index` loop fails to implement for inputs whose rotations are
not all distinct. -/
theorem bwt_roundtrip_failure :
    encode_bwt ([0, 1, 0, 1] : List Nat) = some ([1, 1, 0, 0], 0) ∧
    decode_bwt ([1, 1, 0, 0] : List Nat) 0 = some [0, 1] ∧
    (encode_bwt ([0, 1, 0, 1] : List Nat)).bind (fun p => decode_bwt p.1 p.2) =
      some [0, 1] ∧
    ([0, 1] : List Nat) ≠ [0, 1, 0, 1] := by decide

set_option maxRecDepth 200000 in
/-- Claim C2 is false on the code: the STACK pipeline does not round-trip
on the byte buffer `[0, 1, 0, 1]`.  Compression succeeds (BWT gives
`([1, 1, 0, 0], 0)`, MTF gives `[1, 0, 1, 0]`, LZW gives `[1, 0, 256]`),
but decompression returns `[0, 1]`: the LZW and MTF stages invert exactly
and the failure is the `decode_bwt` cycle walk terminating early on a
periodic permutation. -/
theorem stack_roundtrip_failure :
    stack_compress [0, 1, 0, 1] 255 = some ([1, 0, 256], 0) ∧
    stack_decompress [1, 0, 256] 0 = some [0, 1] ∧
    ([0, 1] : List Nat) ≠ [0, 1, 0, 1] := by decide

/-- Claim C10: with `max_dictionary_size = 0`, the empty dictionary is
already at capacity, so the first insertion takes the overwrite-slot-0
branch and `dictionary.get_mut(0).unwrap()` fails on the empty
dictionary: `lz78_encode` fails on every nonempty input and `lz78_decode`
fails on every nonempty entry stream. -/
theorem lz78_zero_capacity {α : Type} [DecidableEq α] (input : List α)
    (es : List (LZ78entry α)) (lookaheadMax : Nat) (h1 : input ≠ []) (h2 : es ≠ []) :
    lz78_encode input lookaheadMax 0 = none ∧ lz78_decode es 0 = none := by
  constructor
  · match input with
    | [] => exact absurd rfl h1
    | x :: xs =>
      simp [lz78_encode, lz78EncodeGo, bestIdx, bestIdxGo, updateDict]
  · match es with
    | [] => exact absurd rfl h2
    | e :: rest =>
      obtain ⟨oi, c⟩ := e
      cases oi <;> simp [lz78_decode, lz78DecodeGo, LZ78entry.resolve, updateDict]

/-- Witness for `lz78_zero_capacity` at the input `[1]` and the entry
stream `[⟨none, 1⟩]`. -/
theorem lz78_zero_capacity_witness :
    lz78_encode ([1] : List Nat) 4 0 = none ∧
    lz78_decode ([⟨none, 1⟩] : List (LZ78entry Nat)) 0 = none :=
  lz78_zero_capacity [1] [⟨none, 1⟩] 4 (by decide) (by decide)

/-- Claim C8: the dictionary update shared by `lz78_encode` and
`lz78_decode` (both call `updateDict` at their single dictionary-writing
point) keeps the dictionary within `max_dictionary_size` at every step:
below capacity the entry is appended, and at capacity it overwrites
slot 0, leaving the size unchanged. -/
theorem lz78_dict_bound {α : Type} (maxSize : Nat) (dict : List (List α)) (e : List α)
    (dict' : List (List α)) (hle : dict.length ≤ maxSize)
    (hupd : updateDict maxSize dict e = some dict') :
    dict'.length ≤ maxSize ∧
    (dict.length = maxSize → dict' = e :: dict.tail ∧ dict'.length = dict.length) ∧
    (dict.length < maxSize → dict' = dict ++ [e]) := by
  unfold updateDict at hupd
  by_cases h : dict.length = maxSize
  · rw [if_pos h] at hupd
    match dict, hupd with
    | d :: t, hupd =>
      have hd : dict' = e :: t := (Option.some.inj hupd).symm
      subst hd
      refine ⟨?_, fun _ => ⟨rfl, ?_⟩, fun hlt => absurd h (Nat.ne_of_lt hlt)⟩
      · simpa using Nat.le_of_eq h
      · simp
  · rw [if_neg h] at hupd
    have hd : dict' = dict ++ [e] := (Option.some.inj hupd).symm
    subst hd
    have hlt : dict.length < maxSize := Nat.lt_of_le_of_ne hle h
    refine ⟨?_, fun heq => absurd heq h, fun _ => rfl⟩
    simpa using hlt

/-- Witness for `lz78_dict_bound` at a full one-slot dictionary. -/
theorem lz78_dict_bound_witness :
    (([[2]] : List (List Nat))).length ≤ 1 ∧
    (([[1]] : List (List Nat)).length = 1 →
      ([[2]] : List (List Nat)) = [2] :: ([[1]] : List (List Nat)).tail ∧
      ([[2]] : List (List Nat)).length = ([[1]] : List (List Nat)).length) ∧
    (([[1]] : List (List Nat)).length < 1 → ([[2]] : List (List Nat)) = [[1]] ++ [[2]]) :=
  lz78_dict_bound 1 [[1]] [2] [[2]] (by decide) (by decide)

/-- Claim C7: whenever a decoder's input contains an index or offset out
of the current bounds — an MTF index at or beyond the ordering's length
(the ordering's length is invariant under the move-to-front mutation), an
LZW token at or beyond the current dictionary's length, or an LZ77 offset
greater than the output produced so far — the decode stops with a
decode-format failure (`none`, the model of the Rust panic) instead of
producing output. -/
theorem decode_oob_errors {α : Type} [DecidableEq α] :
    (∀ (input : List Nat) (ord : List α) (idx : Nat), idx ∈ input → ord.length ≤ idx →
      decode_move_to_front input ord = none) ∧
    (∀ (dict : List (List α)) (idx : Nat) (rest : List Nat), dict.length ≤ idx →
      lzwDecodeGo dict (idx :: rest) = none) ∧
    (∀ (out : List α) (e : LZ77entry α) (rest : List (LZ77entry α)),
      out.length < e.offset → lz77DecodeGo (e :: rest) out = none) := by
  refine ⟨?_, ?_, ?_⟩
  · intro input
    induction input with
    | nil => intro ord idx h _; simp at h
    | cons i is ih =>
      intro ord idx hmem hlen
      rcases List.mem_cons.mp hmem with heq | htail
      · subst heq
        simp [decode_move_to_front, mtfDecodeGo, List.getElem?_eq_none hlen]
      · cases h0 : ord[i]? with
        | none => simp [decode_move_to_front, mtfDecodeGo, h0]
        | some el =>
          have hi : i < ord.length := by
            by_contra hc
            rw [List.getElem?_eq_none (Nat.le_of_not_lt hc)] at h0
            exact Option.noConfusion h0
          have hlen' : (el :: ord.eraseIdx i).length ≤ idx := by
            simp [List.length_eraseIdx_of_lt hi]
            omega
          have hrec := ih (el :: ord.eraseIdx i) idx htail hlen'
          simp only [decode_move_to_front] at hrec
          simp [decode_move_to_front, mtfDecodeGo, h0, hrec]
  · intro dict idx rest h
    simp [lzwDecodeGo, List.getElem?_eq_none h]
  · intro out e rest h
    simp [lz77DecodeGo, Nat.not_le.mpr h]

/-- Witness for `decode_oob_errors`: an MTF index 2 against a length-2
ordering, an LZW token 3 against a one-entry dictionary, and an LZ77
offset 2 against an empty output, each make the decoder fail. -/
theorem decode_oob_errors_witness :
    decode_move_to_front [2] ([10, 20] : List Nat) = none ∧
    lzwDecodeGo ([[1]] : List (List Nat)) [3, 0] = none ∧
    lz77DecodeGo ([⟨2, 1, 5⟩] : List (LZ77entry Nat)) [] = none :=
  ⟨(@decode_oob_errors Nat _).1 [2] [10, 20] 2 (by decide) (by decide),
   (@decode_oob_errors Nat _).2.1 [[1]] 3 [0] (by decide),
   (@decode_oob_errors Nat _).2.2 [] ⟨2, 1, 5⟩ [] (by decide)⟩

/-! ### LZ77 round trip -/

/-- Every position `q` below the value of the inner match loop satisfies
the loop condition: the symbols agree and `i + q + 1 < input.length`. -/
theorem matchLenGo_spec [DecidableEq α] [Inhabited α] (input : List α)
    (maxLength j i : Nat) :
    ∀ fuel k,
      (∀ q < k, input.getD (j + q) default = input.getD (i + q) default ∧
        i + q + 1 < input.length ∧ q < maxLength) →
      ∀ q < matchLenGo input maxLength j i fuel k,
        input.getD (j + q) default = input.getD (i + q) default ∧
          i + q + 1 < input.length ∧ q < maxLength := by
  intro fuel
  induction fuel with
  | zero => intro k hk; simpa [matchLenGo] using hk
  | succ fuel ih =>
    intro k hk
    by_cases hcond : k < maxLength ∧ i + k + 1 < input.length ∧
        input.getD (j + k) default = input.getD (i + k) default
    · rw [matchLenGo, if_pos hcond]
      refine ih (k + 1) ?_
      intro q hq
      rcases Nat.lt_succ_iff_lt_or_eq.mp hq with h | h
      · exact hk q h
      · subst h; exact ⟨hcond.2.2, hcond.2.1, hcond.1⟩
    · rw [matchLenGo, if_neg hcond]
      exact hk

/-- Properties of the match length found by `lz77_encode`. -/
theorem matchLen_spec [DecidableEq α] [Inhabited α] (input : List α)
    (maxLength j i : Nat) :
    ∀ q < matchLen input maxLength j i,
      input.getD (j + q) default = input.getD (i + q) default ∧
        i + q + 1 < input.length ∧ q < maxLength :=
  matchLenGo_spec input maxLength j i maxLength 0 (by intro q hq; omega)

theorem bestMatchGo_cons [DecidableEq α] [Inhabited α] (input : List α)
    (maxLength i j : Nat) (js : List Nat) (m : Option (Nat × Nat)) :
    bestMatchGo input maxLength i (j :: js) m =
      if (match m with | some q => q.2 | none => 0) < matchLen input maxLength j i then
        bestMatchGo input maxLength i js (some (i - j, matchLen input maxLength j i))
      else
        bestMatchGo input maxLength i js m := rfl

theorem bestMatchGo_spec [DecidableEq α] [Inhabited α] (input : List α)
    (maxLength i : Nat) :
    ∀ (js : List Nat) (m : Option (Nat × Nat)),
      (∀ j ∈ js, j < i) →
      (∀ p, m = some p → GoodLZ77Match input maxLength i p) →
      ∀ p, bestMatchGo input maxLength i js m = some p →
        GoodLZ77Match input maxLength i p := by
  intro js
  induction js with
  | nil => intro m _ hm p hp; exact hm p (by simpa [bestMatchGo] using hp)
  | cons j js ih =>
    intro m hjs hm p hp
    rw [bestMatchGo_cons] at hp
    split at hp
    · next hcond =>
      refine ih (some (i - j, matchLen input maxLength j i))
        (fun x hx => hjs x (List.mem_cons_of_mem _ hx)) ?_ p hp
      intro q hq
      cases hq
      refine ⟨j, hjs j (List.mem_cons_self _ _), rfl, rfl, ?_⟩
      rcases m with _ | q <;> simp at hcond <;> omega
    · exact ih m (fun x hx => hjs x (List.mem_cons_of_mem _ hx)) hm p hp

/-- Every candidate position scanned by `lz77_encode` lies strictly
before the cursor. -/
theorem lz77Candidates_lt (i maxOffset : Nat) : ∀ j ∈ lz77Candidates i maxOffset, j < i := by
  intro j hj
  rcases List.mem_map.mp hj with ⟨t, ht, rfl⟩
  have := List.mem_range.mp ht
  omega

theorem bestMatch_spec [DecidableEq α] [Inhabited α] (input : List α)
    (maxOffset maxLength i : Nat) (p : Nat × Nat)
    (hp : bestMatch input maxOffset maxLength i = some p) :
    GoodLZ77Match input maxLength i p :=
  bestMatchGo_spec input maxLength i (lz77Candidates i maxOffset) none
    (lz77Candidates_lt i maxOffset) (by intro q hq; exact Option.noConfusion hq) p hp

/-- The copy loop of `lz77_decode`, replayed on a decoded prefix of the
input, extends the prefix by exactly the matched symbols. -/
theorem lz77Copy_take [DecidableEq α] [Inhabited α] (input : List α) :
    ∀ (k i j : Nat), j < i → i + k ≤ input.length →
      (∀ q < k, input.getD (j + q) default = input.getD (i + q) default) →
      lz77Copy (input.take i) j k = some (input.take (i + k)) := by
  intro k
  induction k with
  | zero => intro i j _ _ _; simp [lz77Copy]
  | succ k ih =>
    intro i j hj hik heq
    have hjlen : j < input.length := by omega
    have hilen : i < input.length := by omega
    have hget : (input.take i)[j]? = some input[j] := by
      rw [List.getElem?_take_of_lt hj, List.getElem?_eq_getElem hjlen]
    have hji : input[j] = input[i] := by
      have h0 := heq 0 (by omega)
      rw [Nat.add_zero, Nat.add_zero, List.getD_eq_getElem input default hjlen,
        List.getD_eq_getElem input default hilen] at h0
      exact h0
    have hstep : input.take i ++ [input[j]] = input.take (i + 1) := by
      rw [hji, List.take_succ, List.getElem?_eq_getElem hilen]
      simp
    have hrec := ih (i + 1) (j + 1) (by omega) (by omega) ?_
    · rw [lz77Copy, hget]
      simp only [hstep]
      have harith : i + 1 + k = i + (k + 1) := by omega
      rw [harith] at hrec
      exact hrec
    · intro q hq
      have := heq (q + 1) (by omega)
      have e1 : j + 1 + q = j + (q + 1) := by omega
      have e2 : i + 1 + q = i + (q + 1) := by omega
      rw [e1, e2]
      exact this

/-- The main LZ77 round-trip invariant: decoding the entries emitted from
cursor `i` onto the already-decoded prefix `input.take i` recovers the
whole input. -/
theorem lz77_go_roundtrip [DecidableEq α] [Inhabited α] (input : List α)
    (maxOffset maxLength : Nat) :
    ∀ fuel i, input.length - i ≤ fuel → i ≤ input.length →
      lz77DecodeGo (lz77EncodeGo input maxOffset maxLength fuel i) (input.take i) =
        some input := by
  intro fuel
  induction fuel with
  | zero =>
    intro i hfuel hle
    have hi : i = input.length := by omega
    subst hi
    simp [lz77EncodeGo, lz77DecodeGo]
  | succ fuel ih =>
    intro i hfuel hle
    by_cases h : i < input.length
    · rw [lz77EncodeGo, if_pos h]
      cases hbm : bestMatch input maxOffset maxLength i with
      | some p =>
        obtain ⟨off, k⟩ := p
        obtain ⟨j, hj, hoff, hk, hk1⟩ := bestMatch_spec input maxOffset maxLength i _ hbm
        simp only at hoff hk hk1
        have hik : i + k < input.length := by
          have := (matchLen_spec input maxLength j i (k - 1) (by omega)).2.1
          omega
        have htklen : (input.take i).length = i := List.length_take_of_le hle
        rw [lz77DecodeGo]
        have hofle : off ≤ (input.take i).length := by omega
        rw [if_pos hofle]
        have hstart : (input.take i).length - off = j := by omega
        rw [hstart]
        have hcopy : lz77Copy (input.take i) j k = some (input.take (i + k)) := by
          refine lz77Copy_take input k i j hj (by omega) ?_
          intro q hq
          exact (matchLen_spec input maxLength j i q (by omega)).1
        rw [hcopy]
        have hpush : input.take (i + k) ++ [input.getD (i + k) default] =
            input.take (i + k + 1) := by
          rw [List.getD_eq_getElem input default hik, List.take_succ,
            List.getElem?_eq_getElem hik]
          simp
        simp only [hpush]
        exact ih (i + k + 1) (by omega) (by omega)
      | none =>
        have htklen : (input.take i).length = i := List.length_take_of_le hle
        have hpush : input.take i ++ [input.getD i default] = input.take (i + 1) := by
          rw [List.getD_eq_getElem input default h, List.take_succ,
            List.getElem?_eq_getElem h]
          simp
        rw [lz77DecodeGo]
        have hcond : (⟨0, 0, input.getD i default⟩ : LZ77entry α).offset ≤
            (input.take i).length := by simp
        rw [if_pos hcond]
        simp only [lz77Copy, hpush]
        exact ih (i + 1) (by omega) (by omega)
    · rw [lz77EncodeGo, if_neg h]
      have hi : i = input.length := by omega
      subst hi
      simp [lz77DecodeGo]

/-- Claim C5: for every finite input and every `max_offset` and
`max_length`, `lz77_decode (lz77_encode input max_offset max_length)`
recovers the input exactly — including the empty input, single-symbol
input, and repetitive input — because decode replays each entry against
the already-decoded output. -/
theorem lz77_roundtrip {α : Type} [DecidableEq α] [Inhabited α] (input : List α)
    (maxOffset maxLength : Nat) :
    lz77_decode (lz77_encode input maxOffset maxLength) = some input := by
  have := lz77_go_roundtrip input maxOffset maxLength input.length 0 (by omega) (by omega)
  simpa [lz77_encode, lz77_decode] using this

/-- Claim C6 is false on the code: at input `[0, 0, 0, 0]` (with
`max_offset = max_length = 4`) the claim's encoder would finish with the
entry `(1, 3, none)` — a length-3 match exhausting the input, carrying no
next symbol and advancing by `k` — but the source encoder's match growth
stops at `i + k + 1 < input.len()`, so it emits `(1, 2, some 0)`: the
final match never exhausts the input and `next_char` is always a literal
symbol (`next_char` has type `T`, not `Option<T>`). -/
theorem lz77_next_char_cex :
    lz77EncodeClaim ([0, 0, 0, 0] : List Nat) 4 4 = [(0, 0, some 0), (1, 3, none)] ∧
    (lz77_encode ([0, 0, 0, 0] : List Nat) 4 4).map toClaimTriple =
      [(0, 0, some 0), (1, 2, some 0)] ∧
    lz77EncodeClaim ([0, 0, 0, 0] : List Nat) 4 4 ≠
      (lz77_encode ([0, 0, 0, 0] : List Nat) 4 4).map toClaimTriple := by decide

theorem lz77EntriesShape_go [DecidableEq α] [Inhabited α] (input : List α)
    (maxOffset maxLength : Nat) :
    ∀ fuel i, input.length - i ≤ fuel → i ≤ input.length →
      lz77EntriesShape input i (lz77EncodeGo input maxOffset maxLength fuel i) := by
  intro fuel
  induction fuel with
  | zero =>
    intro i hfuel hle
    have : i = input.length := by omega
    simpa [lz77EncodeGo, lz77EntriesShape] using this
  | succ fuel ih =>
    intro i hfuel hle
    by_cases h : i < input.length
    · rw [lz77EncodeGo, if_pos h]
      cases hbm : bestMatch input maxOffset maxLength i with
      | some p =>
        obtain ⟨off, k⟩ := p
        obtain ⟨j, hj, hoff, hk, hk1⟩ := bestMatch_spec input maxOffset maxLength i _ hbm
        simp only at hoff hk hk1
        have hik : i + k < input.length := by
          have := (matchLen_spec input maxLength j i (k - 1) (by omega)).2.1
          omega
        exact ⟨hik, rfl, ih (i + k + 1) (by omega) (by omega)⟩
      | none =>
        refine ⟨by simpa using h, by simp, ?_⟩
        simpa using ih (i + 1) (by omega) (by omega)
    · rw [lz77EncodeGo, if_neg h]
      have : i = input.length := by omega
      simpa [lz77EntriesShape] using this

/-- Amended claim C6: `next_symbol` is not optional in the code.  The
match search caps the match length so that `i + k + 1 ≤ input.len()`,
hence every emitted entry — the final one included — carries the literal
`next_char = input[i + k]`, the cursor always advances by `k + 1`, and
the entry stream covers the input exactly (a match never exhausts the
input, so the claimed `None`/advance-by-`k` case never occurs). -/
theorem lz77_next_char_mandatory {α : Type} [DecidableEq α] [Inhabited α]
    (input : List α) (maxOffset maxLength : Nat) :
    lz77EntriesShape input 0 (lz77_encode input maxOffset maxLength) :=
  lz77EntriesShape_go input maxOffset maxLength input.length 0 (by omega) (by omega)

/-! ### Dictionary-scan lemmas (shared by LZ78 and LZW) -/

theorem bestIdxGo_cons {α : Type} (dict : List (List α)) (good : List α → Bool)
    (pos : Nat) (e : List α) (es : List (List α)) (acc : Option Nat) :
    bestIdxGo dict good pos (e :: es) acc =
      if good e then
        match acc with
        | some b =>
          if (dict.getD b []).length < e.length then
            bestIdxGo dict good (pos + 1) es (some pos)
          else
            bestIdxGo dict good (pos + 1) es acc
        | none => bestIdxGo dict good (pos + 1) es (some pos)
      else bestIdxGo dict good (pos + 1) es acc := rfl

theorem bestIdxGo_cons_none {α : Type} (dict : List (List α)) (good : List α → Bool)
    (pos : Nat) (e : List α) (es : List (List α)) :
    bestIdxGo dict good pos (e :: es) none =
      if good e then bestIdxGo dict good (pos + 1) es (some pos)
      else bestIdxGo dict good (pos + 1) es none := rfl

theorem bestIdxGo_cons_some {α : Type} (dict : List (List α)) (good : List α → Bool)
    (pos : Nat) (e : List α) (es : List (List α)) (a : Nat) :
    bestIdxGo dict good pos (e :: es) (some a) =
      if good e then
        if (dict.getD a []).length < e.length then
          bestIdxGo dict good (pos + 1) es (some pos)
        else
          bestIdxGo dict good (pos + 1) es (some a)
      else bestIdxGo dict good (pos + 1) es (some a) := rfl

/-- Any index returned by the dictionary scan names an entry of the
dictionary that passes the acceptance test. -/
theorem bestIdxGo_spec {α : Type} (dict : List (List α)) (good : List α → Bool) :
    ∀ (es : List (List α)) (pos : Nat) (acc : Option Nat),
      (∀ q, es[q]? = dict[pos + q]?) →
      (∀ b, acc = some b → ∃ e, dict[b]? = some e ∧ good e = true) →
      ∀ b, bestIdxGo dict good pos es acc = some b →
        ∃ e, dict[b]? = some e ∧ good e = true := by
  intro es
  induction es with
  | nil => intro pos acc _ hacc b hb; exact hacc b hb
  | cons e es ih =>
    intro pos acc hes hacc b hb
    have h0 : dict[pos]? = some e := by
      have := hes 0
      simpa using this.symm
    have hes' : ∀ q, es[q]? = dict[pos + 1 + q]? := by
      intro q
      have := hes (q + 1)
      simpa [Nat.add_assoc, Nat.add_comm, Nat.add_left_comm] using this
    by_cases hg : good e
    · have hposP : ∀ b, some pos = some b → ∃ e', dict[b]? = some e' ∧ good e' = true := by
        intro b hb'
        cases hb'
        exact ⟨e, h0, hg⟩
      cases acc with
      | none =>
        rw [bestIdxGo_cons_none, if_pos hg] at hb
        exact ih (pos + 1) (some pos) hes' hposP b hb
      | some a =>
        rw [bestIdxGo_cons_some, if_pos hg] at hb
        by_cases hlen : (dict.getD a []).length < e.length
        · rw [if_pos hlen] at hb
          exact ih (pos + 1) (some pos) hes' hposP b hb
        · rw [if_neg hlen] at hb
          exact ih (pos + 1) (some a) hes' hacc b hb
    · rw [bestIdxGo_cons, if_neg hg] at hb
      exact ih (pos + 1) acc hes' hacc b hb

theorem bestIdx_spec {α : Type} (dict : List (List α)) (good : List α → Bool)
    (b : Nat) (hb : bestIdx dict good = some b) :
    ∃ e, dict[b]? = some e ∧ good e = true :=
  bestIdxGo_spec dict good dict 0 none (by intro q; simp)
    (by intro b hb'; exact Option.noConfusion hb') b hb

/-- When the dictionary scan returns nothing, the accumulator was empty
and no scanned entry passes the acceptance test. -/
theorem bestIdxGo_eq_none {α : Type} (dict : List (List α)) (good : List α → Bool) :
    ∀ (es : List (List α)) (pos : Nat) (acc : Option Nat),
      bestIdxGo dict good pos es acc = none →
      acc = none ∧ ∀ e ∈ es, good e = false := by
  intro es
  induction es with
  | nil =>
    intro pos acc h
    refine ⟨by simpa [bestIdxGo] using h, by simp⟩
  | cons e es ih =>
    intro pos acc h
    by_cases hg : good e
    · cases acc with
      | none =>
        rw [bestIdxGo_cons_none, if_pos hg] at h
        have := (ih (pos + 1) (some pos) h).1
        exact Option.noConfusion this
      | some a =>
        rw [bestIdxGo_cons_some, if_pos hg] at h
        by_cases hlen : (dict.getD a []).length < e.length
        · rw [if_pos hlen] at h
          have := (ih (pos + 1) (some pos) h).1
          exact Option.noConfusion this
        · rw [if_neg hlen] at h
          have := (ih (pos + 1) (some a) h).1
          exact Option.noConfusion this
    · rw [bestIdxGo_cons, if_neg hg] at h
      obtain ⟨hacc, hall⟩ := ih (pos + 1) acc h
      refine ⟨hacc, ?_⟩
      intro e' he'
      rcases List.mem_cons.mp he' with rfl | he'
      · exact Bool.eq_false_iff.mpr hg
      · exact hall e' he'

theorem bestIdx_eq_none {α : Type} (dict : List (List α)) (good : List α → Bool)
    (h : bestIdx dict good = none) : ∀ e ∈ dict, good e = false :=
  (bestIdxGo_eq_none dict good dict 0 none h).2

/-- With a positive capacity the LZ78 dictionary update always succeeds:
a dictionary at capacity is nonempty, so slot 0 exists. -/
theorem updateDict_succeeds {α : Type} (maxSize : Nat) (hmax : 0 < maxSize)
    (dict : List (List α)) (entry : List α) :
    ∃ dict', updateDict maxSize dict entry = some dict' := by
  unfold updateDict
  by_cases h : dict.length = maxSize
  · rw [if_pos h]
    match dict, h with
    | [], h => simp at h; omega
    | d :: t, _ => exact ⟨entry :: t, rfl⟩
  · rw [if_neg h]
    exact ⟨dict ++ [entry], rfl⟩

/-! ### LZ78 round trip -/

/-- The LZ78 round-trip invariant: starting from any shared dictionary
state, decoding the entries emitted for `rest` (with enough fuel)
recovers `rest`, the decoder rebuilding the identical dictionary at
every step. -/
theorem lz78_go_roundtrip {α : Type} [DecidableEq α] (lookaheadMax maxSize : Nat)
    (hmax : 0 < maxSize) :
    ∀ (fuel : Nat) (dict : List (List α)) (rest : List α), rest.length ≤ fuel →
      ∃ es, lz78EncodeGo lookaheadMax maxSize fuel dict rest = some es ∧
        lz78DecodeGo maxSize dict es = some rest := by
  intro fuel
  induction fuel with
  | zero =>
    intro dict rest hlen
    have : rest = [] := List.length_eq_zero.mp (by omega)
    subst this
    exact ⟨[], rfl, rfl⟩
  | succ fuel ih =>
    intro dict rest hlen
    match rest with
    | [] => exact ⟨[], rfl, rfl⟩
    | x :: rs =>
      cases hbi : bestIdx dict (lz78Good lookaheadMax (x :: rs)) with
      | some idx =>
        obtain ⟨e, hde, hgood⟩ := bestIdx_spec dict _ idx hbi
        have hgood' := of_decide_eq_true hgood
        obtain ⟨hla, hlen1, htake⟩ := hgood'
        have hgetd : dict.getD idx [] = e := by
          rw [List.getD_eq_getElem?_getD, hde]
          rfl
        have hlenlt : e.length < (x :: rs).length := by omega
        have hget : (x :: rs)[e.length]? = some (x :: rs)[e.length] :=
          List.getElem?_eq_getElem hlenlt
        have hres : (LZ78entry.mk (some idx) (x :: rs)[e.length]).resolve dict =
            some (e ++ [(x :: rs)[e.length]]) := by
          simp [LZ78entry.resolve, hde]
        obtain ⟨dict', hupd⟩ := updateDict_succeeds maxSize hmax dict (e ++ [(x :: rs)[e.length]])
        have hdroplen : ((x :: rs).drop (e.length + 1)).length ≤ fuel := by
          simp only [List.length_drop]
          simp at hlen ⊢
          omega
        obtain ⟨es', henc', hdec'⟩ := ih dict' ((x :: rs).drop (e.length + 1)) hdroplen
        refine ⟨⟨some idx, (x :: rs)[e.length]⟩ :: es', ?_, ?_⟩
        · simp only [lz78EncodeGo, hbi, hgetd, hget, hres, hupd, henc', Option.map_some']
        · simp only [lz78DecodeGo, hres, hupd, hdec', Option.map_some']
          have hsplit : e ++ [(x :: rs)[e.length]] ++ (x :: rs).drop (e.length + 1) =
              x :: rs := by
            have hdq : (x :: rs).drop e.length =
                (x :: rs)[e.length] :: (x :: rs).drop (e.length + 1) :=
              List.drop_eq_getElem_cons hlenlt
            calc e ++ [(x :: rs)[e.length]] ++ (x :: rs).drop (e.length + 1)
                = e ++ ((x :: rs)[e.length] :: (x :: rs).drop (e.length + 1)) := by simp
              _ = e ++ (x :: rs).drop e.length := by rw [← hdq]
              _ = (x :: rs).take e.length ++ (x :: rs).drop e.length := by rw [htake]
              _ = x :: rs := List.take_append_drop _ _
          rw [hsplit]
      | none =>
        obtain ⟨dict', hupd⟩ := updateDict_succeeds maxSize hmax dict [x]
        have hrslen : rs.length ≤ fuel := by simp at hlen; omega
        obtain ⟨es', henc', hdec'⟩ := ih dict' rs hrslen
        refine ⟨⟨none, x⟩ :: es', ?_, ?_⟩
        · simp only [lz78EncodeGo, hbi, hupd, henc', Option.map_some']
        · have hres : (LZ78entry.mk (none : Option Nat) x).resolve dict = some [x] := rfl
          simp only [lz78DecodeGo, hres, hupd, hdec', Option.map_some']
          rfl

/-- Claim C3: for every finite input, every `lookahead_max` and every
positive `max_dictionary_size`, LZ78 round-trips:
`lz78_decode (lz78_encode input la max) max = input`.  Encoder and
decoder resolve each entry against identical dictionaries and update
them under the identical capacity/slot-0-overwrite rule, so they stay in
lockstep even across slot-0 evictions.  (`max_dictionary_size = 0` makes
both sides fail — see `lz78_zero_capacity` — so positivity is the
validity condition.) -/
theorem lz78_roundtrip {α : Type} [DecidableEq α] (input : List α)
    (lookaheadMax maxSize : Nat) (hmax : 0 < maxSize) :
    ∃ es, lz78_encode input lookaheadMax maxSize = some es ∧
      lz78_decode es maxSize = some input :=
  lz78_go_roundtrip lookaheadMax maxSize hmax input.length [] input (Nat.le_refl _)

/-- Witness for `lz78_roundtrip` at the repetitive input
`[1, 1, 2, 1, 1, 2]` with `lookahead_max = 4` and
`max_dictionary_size = 2` (small enough to exercise the slot-0
overwrite). -/
theorem lz78_roundtrip_witness :
    0 < 2 ∧ ∃ es, lz78_encode ([1, 1, 2, 1, 1, 2] : List Nat) 4 2 = some es ∧
      lz78_decode es 2 = some [1, 1, 2, 1, 1, 2] :=
  ⟨by decide, lz78_roundtrip [1, 1, 2, 1, 1, 2] 4 2 (by decide)⟩

/-! ### LZW round trip -/

theorem lzwEncodeGo_nil {α : Type} [DecidableEq α] (maxl fuel : Nat)
    (dict : List (List α)) : lzwEncodeGo maxl fuel dict [] = some [] := by
  cases fuel <;> rfl

theorem lzwEncodeGo_cons {α : Type} [DecidableEq α] (maxl fuel : Nat)
    (dict : List (List α)) (x : α) (rs : List α) :
    lzwEncodeGo maxl (fuel + 1) dict (x :: rs) =
      match bestIdx dict (lzwGood maxl (x :: rs)) with
      | none => none
      | some idx =>
        match (x :: rs).drop (dict.getD idx []).length with
        | [] => (lzwEncodeGo maxl fuel dict []).map (idx :: ·)
        | y :: ys =>
          (lzwEncodeGo maxl fuel
            (if dict.getD idx [] ++ [y] ∈ dict then dict
             else dict ++ [dict.getD idx [] ++ [y]]) (y :: ys)).map (idx :: ·) := rfl

theorem lzwDecodeGo_cons {α : Type} [DecidableEq α] (dict : List (List α))
    (idx : Nat) (rest : List Nat) :
    lzwDecodeGo dict (idx :: rest) =
      match dict[idx]? with
      | none => none
      | some entry =>
        match rest with
        | [] => some entry
        | nextIdx :: _ =>
          match (if nextIdx < dict.length then
                  match (dict.getD nextIdx []).head? with
                  | some c => some (entry ++ [c])
                  | none => none
                 else
                  match entry.head? with
                  | some c => some (entry ++ [c])
                  | none => none : Option (List α)) with
          | none => none
          | some newEntry =>
            (lzwDecodeGo (if newEntry ∈ dict then dict else dict ++ [newEntry]) rest).map
              (entry ++ ·) := rfl

/-- The LZW round-trip invariant.  From any dictionary containing no
empty entry and a singleton entry for every remaining input symbol,
encoding succeeds and decoding its output against the same dictionary
recovers the remaining input: the decoder reproduces the encoder's
dictionary growth (including the never-store-duplicates rule) from the
numeric relationship between consecutive tokens alone. -/
theorem lzw_go_roundtrip {α : Type} [DecidableEq α] (maxl : Nat) (hml : 0 < maxl) :
    ∀ (fuel : Nat) (dict : List (List α)) (rest : List α),
      rest.length ≤ fuel → ([] : List α) ∉ dict → (∀ c ∈ rest, [c] ∈ dict) →
      ∃ out, lzwEncodeGo maxl fuel dict rest = some out ∧
        lzwDecodeGo dict out = some rest := by
  intro fuel
  induction fuel with
  | zero =>
    intro dict rest hlen _ _
    have : rest = [] := List.length_eq_zero.mp (by omega)
    subst this
    exact ⟨[], rfl, rfl⟩
  | succ fuel ih =>
    intro dict rest hlen hnil hcov
    match rest with
    | [] => exact ⟨[], rfl, rfl⟩
    | x :: rs =>
      have hxmem : [x] ∈ dict := hcov x (List.mem_cons_self _ _)
      have hxgood : lzwGood maxl (x :: rs) [x] = true := by
        refine decide_eq_true ⟨by simpa using hml, by simp, by simp⟩
      cases hbi : bestIdx dict (lzwGood maxl (x :: rs)) with
      | none =>
        have hfalse := bestIdx_eq_none dict _ hbi [x] hxmem
        rw [hxgood] at hfalse
        exact Bool.noConfusion hfalse
      | some idx =>
        obtain ⟨e, hde, hgood⟩ := bestIdx_spec dict _ idx hbi
        obtain ⟨hla, hlenle, htake⟩ := of_decide_eq_true hgood
        have hgetd : dict.getD idx [] = e := by
          rw [List.getD_eq_getElem?_getD, hde]
          rfl
        have hemem : e ∈ dict := List.getElem?_mem hde
        have hene : e ≠ [] := fun h => hnil (h ▸ hemem)
        have helen : 1 ≤ e.length := List.length_pos.mpr hene
        have hR : e ++ (x :: rs).drop e.length = x :: rs := by
          conv_rhs => rw [← List.take_append_drop e.length (x :: rs)]
          rw [htake]
        cases hR' : (x :: rs).drop e.length with
        | nil =>
          have he_all : e = x :: rs := by
            have := hR
            rw [hR'] at this
            simpa using this
          refine ⟨[idx], ?_, ?_⟩
          · simp only [lzwEncodeGo_cons, hbi, hgetd, hR', lzwEncodeGo_nil,
              Option.map_some']
          · simp only [lzwDecodeGo_cons, hde]
            rw [he_all]
        | cons y ys =>
          set dict2 : List (List α) :=
            if (e ++ [y]) ∈ dict then dict else dict ++ [e ++ [y]] with hdict2
          have hnil2 : ([] : List α) ∉ dict2 := by
            rw [hdict2]
            by_cases hmem : (e ++ [y]) ∈ dict
            · rwa [if_pos hmem]
            · rw [if_neg hmem]
              intro h0
              rcases List.mem_append.mp h0 with h0 | h0
              · exact hnil h0
              · simp at h0
          have hsub : ∀ d, d ∈ dict → d ∈ dict2 := by
            intro d hd
            rw [hdict2]
            by_cases hmem : (e ++ [y]) ∈ dict
            · rwa [if_pos hmem]
            · rw [if_neg hmem]
              exact List.mem_append_left _ hd
          have hcov2 : ∀ c ∈ y :: ys, [c] ∈ dict2 := by
            intro c hc
            have hc' : c ∈ (x :: rs).drop e.length := by rw [hR']; exact hc
            exact hsub _ (hcov c (List.mem_of_mem_drop hc'))
          have hlen2 : (y :: ys).length ≤ fuel := by
            have hlendrop := congrArg List.length hR'
            simp only [List.length_drop] at hlendrop
            simp only [List.length_cons] at hlendrop hlen ⊢
            omega
          obtain ⟨out', henc', hdec'⟩ := ih dict2 (y :: ys) hlen2 hnil2 hcov2
          cases fuel with
          | zero => simp at hlen2
          | succ fuel2 =>
            cases hbi2 : bestIdx dict2 (lzwGood maxl (y :: ys)) with
            | none =>
              simp only [lzwEncodeGo_cons, hbi2] at henc'
              exact Option.noConfusion henc'
            | some idx2 =>
              obtain ⟨e2, hde2, hgood2⟩ := bestIdx_spec dict2 _ idx2 hbi2
              obtain ⟨hla2, hlenle2, htake2⟩ := of_decide_eq_true hgood2
              have he2mem : e2 ∈ dict2 := List.getElem?_mem hde2
              have he2ne : e2 ≠ [] := fun h => hnil2 (h ▸ he2mem)
              obtain ⟨t2, he2⟩ : ∃ t, e2 = y :: t := by
                cases e2 with
                | nil => exact absurd rfl he2ne
                | cons h2 t2 =>
                  have htk : y :: ys.take t2.length = h2 :: t2 := by
                    simpa [List.take_succ_cons] using htake2
                  injection htk with hy _
                  exact ⟨t2, by rw [hy]⟩
              have hout' : ∃ out'', out' = idx2 :: out'' := by
                rw [lzwEncodeGo_cons] at henc'
                simp only [hbi2] at henc'
                cases hd2 : (y :: ys).drop (dict2.getD idx2 []).length with
                | nil =>
                  rw [hd2] at henc'
                  obtain ⟨a, _, ha⟩ := Option.map_eq_some'.mp henc'
                  exact ⟨a, ha.symm⟩
                | cons y2 ys2 =>
                  rw [hd2] at henc'
                  obtain ⟨a, _, ha⟩ := Option.map_eq_some'.mp henc'
                  exact ⟨a, ha.symm⟩
              obtain ⟨out'', hout''⟩ := hout'
              have hdec2 : lzwDecodeGo dict2 (idx2 :: out'') = some (y :: ys) := by
                rw [← hout'']
                exact hdec'
              refine ⟨idx :: out', ?_, ?_⟩
              · rw [lzwEncodeGo_cons]
                simp only [hbi, hgetd, hR', ← hdict2, henc', Option.map_some']
              · -- decode: the first token resolves to `e`, the peek at
                -- `idx2` grows the dictionary to exactly `dict2`
                rw [hout'']
                by_cases hlt : idx2 < dict.length
                · have hdeq : dict[idx2]? = some e2 := by
                    rw [hdict2] at hde2
                    by_cases hmem : (e ++ [y]) ∈ dict
                    · rwa [if_pos hmem] at hde2
                    · rw [if_neg hmem, List.getElem?_append_left hlt] at hde2
                      exact hde2
                  have hgetd2 : dict.getD idx2 [] = e2 := by
                    rw [List.getD_eq_getElem?_getD, hdeq]
                    rfl
                  have hhead : e2.head? = some y := by rw [he2]; rfl
                  simp only [lzwDecodeGo_cons, hde, if_pos hlt, hgetd2, hhead, ← hdict2,
                    hdec2, Option.map_some']
                  rw [← hR, hR']
                · have hmem : (e ++ [y]) ∉ dict := by
                    intro hmem
                    rw [hdict2, if_pos hmem] at hde2
                    have : idx2 < dict.length := by
                      by_contra hc
                      rw [List.getElem?_eq_none (Nat.le_of_not_lt hc)] at hde2
                      exact Option.noConfusion hde2
                    exact hlt this
                  have hd2eq : dict2 = dict ++ [e ++ [y]] := by rw [hdict2, if_neg hmem]
                  have hidx2 : idx2 = dict.length := by
                    have hlt2 : idx2 < dict2.length := by
                      by_contra hc
                      rw [List.getElem?_eq_none (Nat.le_of_not_lt hc)] at hde2
                      exact Option.noConfusion hde2
                    rw [hd2eq] at hlt2
                    simp at hlt2
                    omega
                  have he2eq : e2 = e ++ [y] := by
                    rw [hd2eq, hidx2] at hde2
                    have : (dict ++ [e ++ [y]])[dict.length]? = some (e ++ [y]) := by simp
                    rw [this] at hde2
                    exact (Option.some.inj hde2).symm
                  obtain ⟨te, hee⟩ : ∃ t, e = x :: t := by
                    cases e with
                    | nil => exact absurd rfl hene
                    | cons h0 t0 =>
                      have htk : x :: rs.take t0.length = h0 :: t0 := by
                        simpa [List.take_succ_cons] using htake
                      injection htk with hx _
                      exact ⟨t0, by rw [hx]⟩
                  have hxy : x = y := by
                    have h1 : e ++ [y] = y :: t2 := by rw [← he2eq, he2]
                    rw [hee] at h1
                    have h2 : x :: (te ++ [y]) = y :: t2 := by simpa using h1
                    exact (List.cons.inj h2).1
                  have hheadx : e.head? = some x := by rw [hee]; rfl
                  have hnewfold : e ++ [x] = e ++ [y] := by rw [hxy]
                  simp only [lzwDecodeGo_cons, hde, if_neg hlt, hheadx, hnewfold, ← hdict2,
                    hdec2, Option.map_some']
                  rw [← hR, hR']

/-- Claim C4: for every input all of whose symbols occur in the initial
dictionary, and every positive `max_lookahead`, LZW round-trips:
`lzw_decode (lzw_encode input initial max_lookahead) initial = input`.
The decoder forms `dictionary[input[t]] ++ [dictionary[input[t+1]][0]]`
when the peeked token names an existing entry and
`dictionary[input[t]] ++ [dictionary[input[t]][0]]` when it does not yet,
mirroring the encoder's growth without seeing future symbols. -/
theorem lzw_roundtrip {α : Type} [DecidableEq α] (input initial : List α)
    (maxLookahead : Nat) (hcov : ∀ c ∈ input, c ∈ initial) (hml : 0 < maxLookahead) :
    ∃ out, lzw_encode input initial maxLookahead = some out ∧
      lzw_decode out initial = some input := by
  refine lzw_go_roundtrip maxLookahead hml input.length (initial.map (fun c => [c])) input
    (Nat.le_refl _) ?_ ?_
  · intro h0
    rcases List.mem_map.mp h0 with ⟨a, _, ha⟩
    exact List.noConfusion ha
  · intro c hc
    exact List.mem_map_of_mem _ (hcov c hc)

/-- Witness for `lzw_roundtrip` at the repository's own test input
`b"ABABABABA"` with initial dictionary `b"AB"` and `max_lookahead = 4`. -/
theorem lzw_roundtrip_witness :
    0 < 4 ∧ ∃ out, lzw_encode ([65, 66, 65, 66, 65, 66, 65, 66, 65] : List Nat) [65, 66] 4 =
        some out ∧ lzw_decode out [65, 66] = some [65, 66, 65, 66, 65, 66, 65, 66, 65] :=
  ⟨by decide, lzw_roundtrip [65, 66, 65, 66, 65, 66, 65, 66, 65] [65, 66] 4
    (by decide) (by decide)⟩

end Compression

section Scratch

open Compression

example : encode_bwt ([0, 1, 0, 1] : List Nat) = some ([1, 1, 0, 0], 0) := by decide

example : decode_bwt ([1, 1, 0, 0] : List Nat) 0 = some [0, 1] := by decide

example : encode_bwt ([104, 101, 108, 108, 111] : List Nat) =
    some ([104, 111, 101, 108, 108], 1) := by decide

example : decode_bwt ([104, 111, 101, 108, 108] : List Nat) 1 =
    some [104, 101, 108, 108, 111] := by decide

example : encode_move_to_front ([1, 1, 0, 0] : List Nat) [0, 1, 2] =
    some ([1, 0, 1, 0], [0, 1, 2]) := by decide

example : decode_move_to_front [1, 0, 1, 0] ([0, 1, 2] : List Nat) =
    some ([1, 1, 0, 0], [0, 1, 2]) := by decide

-- RATABARBARATABARBARAT round trip, as in the repository's own test
example :
    lz77_decode (lz77_encode
      ([82, 65, 84, 65, 66, 65, 82, 66, 65, 82, 65, 84, 65, 66, 65, 82, 66, 65, 82, 65, 84] :
        List Nat) 4 4) =
    some [82, 65, 84, 65, 66, 65, 82, 66, 65, 82, 65, 84, 65, 66, 65, 82, 66, 65, 82, 65, 84] := by
  decide

example : lz77_encode ([0, 0, 0, 0] : List Nat) 4 4 =
    [⟨0, 0, 0⟩, ⟨1, 2, 0⟩] := by decide

example : lz77_decode ([⟨0, 0, 1⟩, ⟨1, 5, 2⟩] : List (LZ77entry Nat)) =
    some [1, 1, 1, 1, 1, 1, 2] := by decide

-- TAMTARAMTAMTAMRAMTAT lz78 round trip, as in the repository's own test
example :
    (lz78_encode
      ([84, 65, 77, 84, 65, 82, 65, 77, 84, 65, 77, 84, 65, 77, 82, 65, 77, 84, 65, 84] :
        List Nat) 4 4).bind (fun es => lz78_decode es 4) =
    some [84, 65, 77, 84, 65, 82, 65, 77, 84, 65, 77, 84, 65, 77, 82, 65, 77, 84, 65, 84] := by
  decide

-- ABABABABA lzw, as in the repository's own test
example : lzw_encode ([65, 66, 65, 66, 65, 66, 65, 66, 65] : List Nat) [65, 66] 4 =
    some [0, 1, 2, 4, 3] := by decide

example : lzw_decode [0, 1, 2, 4, 3] ([65, 66] : List Nat) =
    some [65, 66, 65, 66, 65, 66, 65, 66, 65] := by decide

example : lz78_encode ([1] : List Nat) 4 0 = none := by decide

example : lz78_decode ([⟨none, 1⟩] : List (LZ78entry Nat)) 0 = none := by decide

set_option maxRecDepth 100000 in
example : stack_compress [0, 1, 0, 1] 255 = some ([1, 0, 256], 0) := by decide

set_option maxRecDepth 100000 in
example : stack_decompress [1, 0, 256] 0 = some [0, 1] := by decide

end Scratch
